import Mathlib


/-!
Shallow embedding of `src/drive_solver.py` (vehicle routing: greedy packer,
nearest-neighbor constructor, stochastic improver) and verification of the
specification's claims about it.

Modelling conventions:
* Python floats become values of a linearly ordered commutative ring `α`.
  The Euclidean point distance (`Point.distance`, a square root) is neither
  rational-valued nor kernel-computable, so the whole development is
  parametrised by an abstract distance function `d : Point α → Point α → α`;
  every algorithmic claim in the spec is independent of the concrete metric.
  Concrete witnesses and counterexamples use `α := ℤ`, place all points on
  the x-axis, and instantiate `d` with `axisDist`
  (`|x₁ - x₂| + |y₁ - y₂|`), which coincides with the source's Euclidean
  distance on such configurations, so every concrete run shown here is a run
  the Python program performs verbatim.
* Mutating methods become explicit state passing: `DriverAssignment` is a
  structure carrying the `_loads` list and the `_total_distance` cache field;
  `add_load` returns the updated structure, `can_fit_load_run` returns the
  (restored) structure together with the Bool result.
* `sorted([(l.distance(), l) for l in loads], reverse=True)` compares `Load`
  objects when two distances tie, which raises `TypeError` in Python; the
  fallible comparison is modelled in the `Except Unit` monad.
* Python's built-in `sorted` (used on `(distance, load)` tuples and on the
  greedy candidate routes) is Timsort, a stable sort; it is modelled by the
  stable insertion sorts `sortAsc`/`sortDesc`.  Pandas' `Series.sort_values`
  (used by `prioritize_neighbors`) defaults to `kind='quicksort'`, numpy's
  introsort, which is deterministic but NOT stable, so it is modelled by a
  sort-function parameter `srt` constrained only by the contract pandas
  documents (`SortsBy`: the output is a permutation of the input, ascending
  by the key); on rows below numpy's small-array cutoff the implementation is
  an insertion sort, i.e. exactly `sortAsc`, which concrete witnesses and
  counterexamples therefore instantiate.
* `dict` lookups (`load_dict[x]`) are modelled by a total function that
  returns the depot pseudo-load on a missing key; all lookups performed by the
  algorithms happen at keys present in the dictionary, where the two agree.
-/

structure Point (α : Type) where
  x : α
  y : α
deriving DecidableEq, Repr

structure Load (α : Type) where
  load_number : ℕ
  pickup : Point α
  dropoff : Point α
deriving DecidableEq, Repr

/- Distance values live in a linearly ordered commutative ring `α`, standing
in for the source's real-valued Euclidean metric (whose square root is neither
rational nor kernel-computable); concrete witnesses use `α := ℤ` with
axis-aligned points, where the Euclidean distance is exact. -/
variable {α : Type} [LinearOrderedCommRing α]

/-- The depot, `Point(0, 0)` in the source. -/
def depot : Point α := ⟨0, 0⟩

/-- Stand-in metric for witnesses and counterexamples: on configurations where
all points share a coordinate axis it agrees with the source's Euclidean
distance. -/
def axisDist (p q : Point ℤ) : ℤ :=
  (if p.x ≤ q.x then q.x - p.x else p.x - q.x)
    + (if p.y ≤ q.y then q.y - p.y else p.y - q.y)

/-- `Load.distance`: the load's own pickup → dropoff transport distance. -/
def Load.dist (d : Point α → Point α → α) (l : Load α) : α := d l.pickup l.dropoff

/-- `DriverAssignment`: the `_loads` list plus the `_total_distance` cache. -/
structure DriverAssignment (α : Type) where
  loads : List (Load α)
  cache : α
deriving DecidableEq, Repr

/-- `DriverAssignment.calc_total_distance`: fold over the stops accumulating
arrival + transport from the running `stop_coord`, plus the final return to the
depot. -/
def calc_total_distance (d : Point α → Point α → α) (loads : List (Load α)) : α :=
  let acc := loads.foldl
    (fun (acc : α × Point α) load =>
      (acc.1 + d acc.2 load.pickup + d load.pickup load.dropoff, load.dropoff))
    (0, depot)
  acc.1 + d acc.2 depot

/-- `DriverAssignment.__init__`: store the loads and populate the cache. -/
def mkDriver (d : Point α → Point α → α) (loads : List (Load α)) : DriverAssignment α :=
  ⟨loads, calc_total_distance d loads⟩

/-- `DriverAssignment.total_distance`: return the cache, recomputing when the
cached value is falsy (`0.0`). -/
def total_distance (d : Point α → Point α → α) (dr : DriverAssignment α) : α :=
  if dr.cache = 0 then calc_total_distance d dr.loads else dr.cache

/-- `DriverAssignment.filler_distance`: empty-leg distance.  The source indexes
`self._loads[0]` and `self._loads[-1]`, so an empty route raises `IndexError`;
this is modelled by `Option`. -/
def filler_distance (d : Point α → Point α → α) (dr : DriverAssignment α) : Option α :=
  match dr.loads with
  | [] => none
  | a :: _ =>
    let internal_distance :=
      ((dr.loads.zip dr.loads.tail).map (fun p => d p.1.dropoff p.2.pickup)).sum
    let extras := d depot a.pickup + d depot ((dr.loads.getLast?).getD a).dropoff
    some (internal_distance + extras)

/-- `DriverAssignment.arrival_cost`: distance from the last dropoff (or the
depot when the route is empty) to the candidate's pickup. -/
def arrival_cost (d : Point α → Point α → α) (dr : DriverAssignment α) (load : Load α) : α :=
  match dr.loads.getLast? with
  | some last => d last.dropoff load.pickup
  | none => d depot load.pickup

/-- `DriverAssignment.time_remaining`: `12 * 60.0 - total_distance()`. -/
def time_remaining (d : Point α → Point α → α) (dr : DriverAssignment α) : α :=
  12 * 60 - total_distance d dr

/-- `DriverAssignment.add_load`: append and recompute the cache. -/
def add_load (d : Point α → Point α → α) (dr : DriverAssignment α) (load : Load α) :
    DriverAssignment α :=
  let loads := dr.loads ++ [load]
  ⟨loads, calc_total_distance d loads⟩

/-- `DriverAssignment.can_fit_load` as a state transformer: append the
candidate, recompute, pop it back off, return the restored state and the Bool
(the cache field is never touched by the source method). -/
def can_fit_load_run (d : Point α → Point α → α) (dr : DriverAssignment α)
    (possible_job : Load α) : DriverAssignment α × Bool :=
  let appended := dr.loads ++ [possible_job]
  let new_time := calc_total_distance d appended
  let restored := appended.dropLast
  (⟨restored, dr.cache⟩, decide (12 * 60 - new_time ≥ 0))

/-- The Bool value computed by `can_fit_load`. -/
def can_fit_load (d : Point α → Point α → α) (dr : DriverAssignment α)
    (possible_job : Load α) : Bool :=
  (can_fit_load_run d dr possible_job).2

/-- `Solution.evaluate`: `500 * len(assignments) + Σ total_distance()`. -/
def evaluate (d : Point α → Point α → α) (assignments : List (DriverAssignment α)) : α :=
  500 * assignments.length + (assignments.map (total_distance d)).sum

/-! ### Stable sorting

`DataFrame.sort_values` and `sorted(..., key=...)` are stable ascending sorts;
they are modelled by insertion sort `sortAsc`, which is stable: an element is
inserted before the first already-placed element whose key is not smaller, and
elements are inserted from the right, so equal-key elements keep their original
relative order. -/

def insertAsc {β : Type} (key : β → α) (a : β) : List β → List β
  | [] => [a]
  | b :: l => if key b < key a then b :: insertAsc key a l else a :: b :: l

def sortAsc {β : Type} (key : β → α) : List β → List β
  | [] => []
  | a :: l => insertAsc key a (sortAsc key l)

/-- The contract pandas documents for `Series.sort_values`: the output is a
permutation of the input, ascending by the key.  The order of tied entries is
NOT part of the contract for the default `quicksort` kind (numpy introsort,
which is unstable beyond its small-array insertion-sort cutoff). -/
def SortsBy (srt : (ℕ → α) → List ℕ → List ℕ) : Prop :=
  ∀ (key : ℕ → α) (l : List ℕ),
    (srt key l).Perm l ∧ (srt key l).Pairwise (fun a b => key a ≤ key b)

/-- `sorted(..., reverse=True)` on `(distance, Load)` tuples: Python compares
the loads themselves when the distances tie, raising `TypeError`.  The
comparison "is `a` strictly greater than `b`" in the `Except Unit` monad. -/
def tuple_gt (a b : α × Load α) : Except Unit Bool :=
  if b.1 < a.1 then .ok true else if a.1 < b.1 then .ok false else .error ()

def minsertDesc {β : Type} (cmp : β → β → Except Unit Bool) (a : β) :
    List β → Except Unit (List β)
  | [] => .ok [a]
  | b :: l =>
    match cmp a b with
    | .error e => .error e
    | .ok true => .ok (a :: b :: l)
    | .ok false =>
      match minsertDesc cmp a l with
      | .error e => .error e
      | .ok r => .ok (b :: r)

def msortDesc {β : Type} (cmp : β → β → Except Unit Bool) :
    List β → Except Unit (List β)
  | [] => .ok []
  | a :: l =>
    match msortDesc cmp l with
    | .error e => .error e
    | .ok r => minsertDesc cmp a r

/-- Pure descending insertion sort; agrees with `msortDesc` whenever the
latter succeeds. -/
def insertDesc {β : Type} (key : β → α) (a : β) : List β → List β
  | [] => [a]
  | b :: l => if key b < key a then a :: b :: l else b :: insertDesc key a l

def sortDesc {β : Type} (key : β → α) : List β → List β
  | [] => []
  | a :: l => insertDesc key a (sortDesc key l)

/-! ### Greedy packer (`GreedyPacker.solve`) -/

/-- Placement of one load: sort the open routes by arrival cost (stable, via
their indices), append the load to the first one whose arrival cost is
strictly below its remaining time, and open a new single-load route when none
qualifies. -/
def greedy_place (d : Point α → Point α → α) (assignments : List (DriverAssignment α))
    (load : Load α) : List (DriverAssignment α) :=
  let at_ : ℕ → DriverAssignment α := fun i => assignments.getD i ⟨[], 0⟩
  let candidates := sortAsc (fun i => arrival_cost d (at_ i) load)
    (List.range assignments.length)
  match candidates.find?
      (fun i => decide (arrival_cost d (at_ i) load < time_remaining d (at_ i))) with
  | some i => assignments.set i (add_load d (at_ i) load)
  | none => assignments ++ [mkDriver d [load]]

/-- `GreedyPacker.solve`: sort `(distance, load)` pairs descending (fallibly),
then place each load in order starting from a single empty route. -/
def greedy_solve (d : Point α → Point α → α) (loads : List (Load α)) :
    Except Unit (List (DriverAssignment α)) :=
  match msortDesc tuple_gt (loads.map (fun l => (Load.dist d l, l))) with
  | .error e => .error e
  | .ok haul_distances =>
    .ok (haul_distances.foldl (fun acc pair => greedy_place d acc pair.2)
      [mkDriver d []])

/-- The pure greedy pass on an already descending-sorted load order. -/
def greedy_core (d : Point α → Point α → α) (sorted_pairs : List (α × Load α)) :
    List (DriverAssignment α) :=
  sorted_pairs.foldl (fun acc pair => greedy_place d acc pair.2) [mkDriver d []]

/-! ### Distance table, neighbor ranking (`TripOptimizer`) -/

/-- The depot pseudo-load `Load(0, Point(0, 0), Point(0, 0))`. -/
def originLoad : Load α := ⟨0, depot, depot⟩

/-- `self.load_dict`: the input loads keyed by `load_number` (a later duplicate
key overwrites an earlier one, as in a Python dict) with the depot pseudo-load
at key `0`.  A missing key, which would raise `KeyError`, returns the depot
pseudo-load; the algorithms only look up keys present in the dictionary. -/
def load_dict (loads : List (Load α)) (n : ℕ) : Load α :=
  if n = 0 then originLoad
  else (loads.reverse.find? (fun l => l.load_number = n)).getD originLoad

/-- The dict key order of `build_distance_table`: input load numbers in input
order, then the synthetic depot id `0` (for inputs with distinct nonzero ids,
which is the input contract). -/
def table_ids (loads : List (Load α)) : List ℕ := loads.map Load.load_number ++ [0]

/-- `build_distance_table`: diagonal left at the DataFrame initialisation value
`0`, off-diagonal entry `(y, x)` is the distance from `y`'s dropoff to `x`'s
pickup. -/
def distance_table (d : Point α → Point α → α) (loads : List (Load α)) (y x : ℕ) : α :=
  if x = y then 0
  else d (load_dict loads y).dropoff (load_dict loads x).pickup

/-- `prioritize_neighbors`: per row, the column labels sorted ascending by the
row's values via `row.sort_values()`, with the first entry dropped
(`.iloc[:, 1:]`).  The sort is the parameter `srt` because pandas' default
sort kind guarantees only `SortsBy`, not any tie order. -/
def prioritize_neighbors (srt : (ℕ → α) → List ℕ → List ℕ)
    (d : Point α → Point α → α) (loads : List (Load α)) :
    List (ℕ × List ℕ) :=
  (table_ids loads).map
    (fun y => (y, (srt (fun x => distance_table d loads y x) (table_ids loads)).tail))

/-- Row access `neighbor_map.loc[y]` (empty for a label that is absent, which
the algorithms never request). -/
def rowOf (nm : List (ℕ × List ℕ)) (y : ℕ) : List ℕ :=
  ((nm.find? (fun p => p.1 = y)).map Prod.snd).getD []

/-- All ids occurring in any row of a neighbor map. -/
def nmEntries (nm : List (ℕ × List ℕ)) : Finset ℕ :=
  ((nm.map Prod.snd).flatten).toFinset

/-- The guard of the inner `while` loop of `pick_nearest_neighbor_routes`:
not yet allocated, not the depot sentinel, and feasible to append. -/
def nn_guard (d : Point α → Point α → α) (loads : List (Load α))
    (driver : DriverAssignment α) (allocated : Finset ℕ) (x : ℕ) : Bool :=
  decide (x ∉ allocated) && decide (x ≠ 0) && can_fit_load d driver (load_dict loads x)

/-- The inner `while` loop of `pick_nearest_neighbor_routes`: while the route
is under the daily budget, scan the current load's ranking row from the start
for the first id passing `nn_guard`; append it and rescan from the head of its
own row, or stop when the scan exhausts the row.  (The source's
`neighbor_count` pseudo-for over `iloc` positions 0 … num_columns-1 is exactly
a first-match scan of the row.)  Structural recursion on a fuel argument; each
step strictly shrinks the set of not-yet-allocated row entries, so any fuel
above `(nmEntries nm \ allocated).card` gives the loop's true value. -/
def nn_extend_go (d : Point α → Point α → α) (loads : List (Load α))
    (nm : List (ℕ × List ℕ)) :
    ℕ → DriverAssignment α → Finset ℕ → ℕ → DriverAssignment α × Finset ℕ
  | 0, driver, allocated, _ => (driver, allocated)
  | fuel + 1, driver, allocated, current =>
    if total_distance d driver < 12 * 60 then
      match (rowOf nm current).find? (nn_guard d loads driver allocated) with
      | some x =>
        nn_extend_go d loads nm fuel (add_load d driver (load_dict loads x))
          (insert x allocated) x
      | none => (driver, allocated)
    else (driver, allocated)

def nn_extend (d : Point α → Point α → α) (loads : List (Load α))
    (nm : List (ℕ × List ℕ)) (driver : DriverAssignment α) (allocated : Finset ℕ)
    (current : ℕ) : DriverAssignment α × Finset ℕ :=
  nn_extend_go d loads nm ((nmEntries nm \ allocated).card + 1) driver allocated
    current

/-- One iteration of the outer `for starting_job in neighbor_map.loc[0]` loop. -/
def nn_pick_step (d : Point α → Point α → α) (loads : List (Load α))
    (nm : List (ℕ × List ℕ)) (st : List (DriverAssignment α) × Finset ℕ)
    (starting_job : ℕ) : List (DriverAssignment α) × Finset ℕ :=
  if starting_job ∈ st.2 then st
  else
    let res := nn_extend d loads nm (mkDriver d [load_dict loads starting_job])
      (insert starting_job st.2) starting_job
    (st.1 ++ [res.1], res.2)

/-- `pick_nearest_neighbor_routes` (with the default `max_length = 12 * 60`
used by every caller): the final `assignments` list. -/
def pick_nearest_neighbor_routes (d : Point α → Point α → α) (loads : List (Load α))
    (nm : List (ℕ × List ℕ)) : List (DriverAssignment α) :=
  ((rowOf nm 0).foldl (nn_pick_step d loads nm) ([], ∅)).1

/-- The value `pick_nearest_neighbor_routes` returns: `self.evaluate()`. -/
def pick_score (d : Point α → Point α → α) (loads : List (Load α))
    (nm : List (ℕ × List ℕ)) : α :=
  evaluate d (pick_nearest_neighbor_routes d loads nm)

/-- `TripOptimizer.solve`: build the table and ranking, then run the
nearest-neighbor constructor. -/
def trip_optimizer_solve (srt : (ℕ → α) → List ℕ → List ℕ)
    (d : Point α → Point α → α) (loads : List (Load α)) :
    List (DriverAssignment α) :=
  pick_nearest_neighbor_routes d loads (prioritize_neighbors srt d loads)

/-! ### Stochastic improver (`StochasticTripOptimizer`) -/

/-- `create_shuffled_neighbors_map`: per row, permute the first `temperature`
entries and keep the remainder.  `random.sample(row[:t], len(row[:t]))` is
modelled by a sampler function indexed by the row label; the source enumerates
rows positionally via `range(len(...))`, which coincides with the label set on
the consecutively numbered inputs the program accepts. -/
def create_shuffled_neighbors_map (sampler : ℕ → List ℕ → List ℕ)
    (nm : List (ℕ × List ℕ)) (temperature : ℕ) : List (ℕ × List ℕ) :=
  nm.map (fun p => (p.1, sampler p.1 (p.2.take temperature) ++ p.2.drop temperature))

/-- The 42 trials of the improver: temperatures `range(2, 30, 5)`, each run
`temperature // 2` times. -/
def stochastic_trials : List ℕ :=
  ((List.range 6).map (fun k => 2 + 5 * k)).flatMap (fun t => List.replicate (t / 2) t)

/-- `StochasticTripOptimizer.solve`: run the deterministic constructor, then
the randomized trials, keeping the strictly best `(solution, score)` pair; the
randomness of `random.sample` is abstracted into `sampler` (trial index, row
label, prefix). -/
def stochastic_solve (srt : (ℕ → α) → List ℕ → List ℕ)
    (d : Point α → Point α → α) (loads : List (Load α))
    (sampler : ℕ → ℕ → List ℕ → List ℕ) : List (DriverAssignment α) :=
  let nm := prioritize_neighbors srt d loads
  let best0 := (pick_nearest_neighbor_routes d loads nm, pick_score d loads nm)
  let best := stochastic_trials.enum.foldl
    (fun best ti =>
      let jm := create_shuffled_neighbors_map (sampler ti.1) nm ti.2
      let sc := pick_score d loads jm
      if sc < best.2 then (pick_nearest_neighbor_routes d loads jm, sc) else best)
    best0
  best.1

/-! ### Route cost decomposition -/

/-- Structural-recursion form of `calc_total_distance` (running position `p`). -/
def calc_from (d : Point α → Point α → α) (p : Point α) : List (Load α) → α
  | [] => d p depot
  | l :: ls => d p l.pickup + d l.pickup l.dropoff + calc_from d l.dropoff ls

/-- Sum of each load's own pickup → dropoff transport distance. -/
def transport_sum (d : Point α → Point α → α) (loads : List (Load α)) : α :=
  (loads.map (fun l => d l.pickup l.dropoff)).sum

/-- Sum of the dropoff-of-stop-i → pickup-of-stop-(i+1) legs. -/
def gaps_sum (d : Point α → Point α → α) (loads : List (Load α)) : α :=
  ((loads.zip loads.tail).map (fun p => d p.1.dropoff p.2.pickup)).sum

/-- Modelled from the spec: `Route.total_distance()` as the leg-sum formula
(depot → first pickup, each transport, each inter-load gap, last dropoff →
depot), with value 0 for an empty route. -/
def route_leg_sum (d : Point α → Point α → α) (loads : List (Load α)) : α :=
  match loads with
  | [] => 0
  | a :: rest =>
    d depot a.pickup + transport_sum d (a :: rest) + gaps_sum d (a :: rest)
      + d ((a :: rest).getLast (List.cons_ne_nil a rest)).dropoff depot

/-! ### Concrete loads for witnesses and counterexamples (axis-aligned points,
so `axisDist` agrees with the source's Euclidean metric on them) -/

def wLoad1 : Load ℤ := ⟨1, ⟨3, 0⟩, ⟨4, 0⟩⟩

def wLoad2 : Load ℤ := ⟨2, ⟨1, 0⟩, ⟨2, 0⟩⟩

def tieLoad1 : Load ℤ := ⟨1, ⟨5, 0⟩, ⟨9, 0⟩⟩

def tieLoad2 : Load ℤ := ⟨2, ⟨1, 0⟩, ⟨5, 0⟩⟩

def bigLoad1 : Load ℤ := ⟨1, ⟨10, 0⟩, ⟨310, 0⟩⟩

def bigLoad2 : Load ℤ := ⟨2, ⟨320, 0⟩, ⟨615, 0⟩⟩

def depotPickupLoad : Load ℤ := ⟨1, ⟨0, 0⟩, ⟨5, 0⟩⟩

def eqLoad1 : Load ℤ := ⟨1, ⟨0, 0⟩, ⟨7, 0⟩⟩

def eqLoad2 : Load ℤ := ⟨2, ⟨3, 0⟩, ⟨10, 0⟩⟩

/-! ### Claim C2: budget respect in the nearest-neighbor constructor -/

/-- Modelled from the spec: a single load's forced round trip
(depot → pickup → dropoff → depot). -/
def round_trip (d : Point α → Point α → α) (l : Load α) : α :=
  d depot l.pickup + d l.pickup l.dropoff + d l.dropoff depot

/-- Modelled from the spec (amended claim C3): try the open routes in
ascending order of arrival cost; append the load to the first route whose
arrival cost alone is strictly below that route's remaining time (transport
and return legs are not counted); open a new single-load route when no open
route qualifies. -/
def try_candidates (d : Point α → Point α → α) (load : Load α)
    (asgs : List (DriverAssignment α)) : List ℕ → List (DriverAssignment α)
  | [] => asgs ++ [mkDriver d [load]]
  | i :: rest =>
    if arrival_cost d (asgs.getD i ⟨[], 0⟩) load
        < time_remaining d (asgs.getD i ⟨[], 0⟩) then
      asgs.set i (add_load d (asgs.getD i ⟨[], 0⟩) load)
    else try_candidates d load asgs rest

/-- Modelled from the spec (amended claim C3): process the loads in descending
order of their own transport distance, placing each with `try_candidates` on
the routes sorted ascending by arrival cost, starting from one empty route. -/
def greedy_packer_described (d : Point α → Point α → α) (loads : List (Load α)) :
    List (DriverAssignment α) :=
  (sortDesc (Load.dist d) loads).foldl
    (fun asgs load => try_candidates d load asgs
      (sortAsc (fun i => arrival_cost d (asgs.getD i ⟨[], 0⟩) load)
        (List.range asgs.length)))
    [mkDriver d []]

/-! ### Claim C1: coverage -/

/-- All loads across the routes of a Solution. -/
def all_loads (asgs : List (DriverAssignment α)) : List (Load α) :=
  (asgs.map DriverAssignment.loads).flatten

/-! ## Theorems -/

theorem calc_total_distance_nil (d : Point α → Point α → α) :
    calc_total_distance d [] = d depot depot := by
  simp [calc_total_distance]

theorem mem_nmEntries_of_mem_rowOf {nm : List (ℕ × List ℕ)} {y x : ℕ}
    (hx : x ∈ rowOf nm y) : x ∈ nmEntries nm := by
  unfold rowOf at hx
  cases hfind : nm.find? (fun p => p.1 = y) with
  | none => simp [hfind] at hx
  | some p =>
    simp only [hfind, Option.map_some, Option.getD_some] at hx
    have hp : p ∈ nm := List.mem_of_find?_eq_some hfind
    simp only [nmEntries, List.mem_toFinset, List.mem_flatten]
    exact ⟨p.2, List.mem_map.mpr ⟨p, hp, rfl⟩, hx⟩

theorem calc_foldl_aux (d : Point α → Point α → α) :
    ∀ (loads : List (Load α)) (c : α) (p : Point α),
    (loads.foldl (fun (acc : α × Point α) load =>
        (acc.1 + d acc.2 load.pickup + d load.pickup load.dropoff, load.dropoff))
      (c, p)).1
    + d (loads.foldl (fun (acc : α × Point α) load =>
        (acc.1 + d acc.2 load.pickup + d load.pickup load.dropoff, load.dropoff))
      (c, p)).2 depot
    = c + calc_from d p loads := by
  intro loads
  induction loads with
  | nil => intro c p; simp [calc_from]
  | cons l ls ih =>
    intro c p
    simp only [List.foldl_cons, calc_from]
    rw [ih]
    ring

theorem calc_total_distance_eq_calc_from (d : Point α → Point α → α) (loads : List (Load α)) :
    calc_total_distance d loads = calc_from d depot loads := by
  have h := calc_foldl_aux d loads 0 depot
  simpa [calc_total_distance] using h

theorem calc_from_cons_decomp (d : Point α → Point α → α) :
    ∀ (rest : List (Load α)) (a : Load α) (q : Point α),
    calc_from d q (a :: rest)
      = d q a.pickup + transport_sum d (a :: rest) + gaps_sum d (a :: rest)
        + d ((a :: rest).getLast (List.cons_ne_nil a rest)).dropoff depot := by
  intro rest
  induction rest with
  | nil =>
    intro a q
    simp [calc_from, transport_sum, gaps_sum]
  | cons b rs ih =>
    intro a q
    have hgl : (a :: b :: rs).getLast (List.cons_ne_nil a (b :: rs))
        = (b :: rs).getLast (List.cons_ne_nil b rs) := by
      simp [List.getLast_cons]
    calc calc_from d q (a :: b :: rs)
        = d q a.pickup + d a.pickup a.dropoff + calc_from d a.dropoff (b :: rs) := rfl
      _ = d q a.pickup + d a.pickup a.dropoff
          + (d a.dropoff b.pickup + transport_sum d (b :: rs) + gaps_sum d (b :: rs)
            + d ((b :: rs).getLast (List.cons_ne_nil b rs)).dropoff depot) := by
          rw [ih b a.dropoff]
      _ = _ := by
          rw [hgl]
          simp only [transport_sum, gaps_sum, List.map_cons, List.sum_cons,
            List.zip_cons_cons, List.tail_cons]
          ring

theorem calc_eq_route_leg_sum (d : Point α → Point α → α) (h0 : d depot depot = 0)
    (loads : List (Load α)) : calc_total_distance d loads = route_leg_sum d loads := by
  cases loads with
  | nil => simp [calc_total_distance_eq_calc_from, calc_from, route_leg_sum, h0]
  | cons a rest =>
    rw [calc_total_distance_eq_calc_from, calc_from_cons_decomp d rest a depot]
    rfl

theorem total_distance_mkDriver (d : Point α → Point α → α) (loads : List (Load α)) :
    total_distance d (mkDriver d loads) = calc_total_distance d loads := by
  simp [total_distance, mkDriver]

theorem foldl_add_load (d : Point α → Point α → α) :
    ∀ (adds init : List (Load α)),
    adds.foldl (add_load d) (mkDriver d init) = mkDriver d (init ++ adds) := by
  intro adds
  induction adds with
  | nil => intro init; simp
  | cons a rest ih =>
    intro init
    have h1 : add_load d (mkDriver d init) a = mkDriver d (init ++ [a]) := rfl
    simp only [List.foldl_cons, h1, ih]
    simp

/-! ### Properties of the stable sort -/

theorem insertAsc_perm {β : Type} (key : β → α) (a : β) :
    ∀ l : List β, (insertAsc key a l).Perm (a :: l) := by
  intro l
  induction l with
  | nil => exact List.Perm.refl _
  | cons b t ih =>
    simp only [insertAsc]
    split
    · exact (ih.cons b).trans (List.Perm.swap a b t)
    · exact List.Perm.refl _

theorem sortAsc_perm {β : Type} (key : β → α) :
    ∀ l : List β, (sortAsc key l).Perm l := by
  intro l
  induction l with
  | nil => exact List.Perm.refl _
  | cons a t ih =>
    exact (insertAsc_perm key a (sortAsc key t)).trans (ih.cons a)

theorem insertAsc_sorted {β : Type} (key : β → α) (a : β) :
    ∀ {l : List β}, l.Pairwise (fun u v => key u ≤ key v) →
    (insertAsc key a l).Pairwise (fun u v => key u ≤ key v) := by
  intro l
  induction l with
  | nil => intro _; simp [insertAsc]
  | cons b t ih =>
    intro hl
    rcases List.pairwise_cons.mp hl with ⟨hb, ht⟩
    simp only [insertAsc]
    split
    · rename_i hba
      refine List.pairwise_cons.mpr ⟨?_, ih ht⟩
      intro z hz
      rcases List.mem_cons.mp ((insertAsc_perm key a t).mem_iff.mp hz) with hz1 | hz2
      · exact hz1 ▸ le_of_lt hba
      · exact hb z hz2
    · rename_i hba
      refine List.pairwise_cons.mpr ⟨?_, hl⟩
      intro z hz
      rcases List.mem_cons.mp hz with hz1 | hz2
      · exact hz1 ▸ le_of_not_lt hba
      · exact le_trans (le_of_not_lt hba) (hb z hz2)

theorem sortAsc_sorted {β : Type} (key : β → α) :
    ∀ l : List β, (sortAsc key l).Pairwise (fun u v => key u ≤ key v) := by
  intro l
  induction l with
  | nil => simp [sortAsc]
  | cons a t ih => exact insertAsc_sorted key a ih

/-- The stable insertion sort satisfies the `sort_values` contract; it is
also the exact behavior of numpy's introsort on arrays below its small-sort
cutoff (the regime of every concrete table in this file). -/
theorem sortAsc_sortsBy : SortsBy (fun key : ℕ → α => sortAsc key) :=
  fun key l => ⟨sortAsc_perm key l, sortAsc_sorted key l⟩

/-- Any sorted permutation of a list with a strictly minimal element starts
with that element, whatever the tie-breaking. -/
theorem sorted_perm_strict_min_eq_cons {β : Type} [DecidableEq β] (key : β → α)
    (S L : List β) (y : β) (hperm : S.Perm L)
    (hsort : S.Pairwise (fun a b => key a ≤ key b))
    (hy : y ∈ L) (hmin : ∀ x ∈ L, x ≠ y → key y < key x) :
    ∃ t, S = y :: t ∧ t.Perm (L.erase y)
      ∧ t.Pairwise (fun a b => key a ≤ key b) := by
  cases S with
  | nil => exact absurd (hperm.mem_iff.mpr hy) (by simp)
  | cons h t =>
    have hyS : y ∈ h :: t := hperm.mem_iff.mpr hy
    have hhL : h ∈ L := hperm.mem_iff.mp (List.mem_cons_self h t)
    have hhy : h = y := by
      by_contra hne
      have h1 : key y < key h := hmin h hhL hne
      rcases List.mem_cons.mp hyS with heq | hyt
      · exact hne heq.symm
      · exact absurd h1 (not_lt_of_ge ((List.pairwise_cons.mp hsort).1 y hyt))
    subst hhy
    refine ⟨t, rfl, ?_, (List.pairwise_cons.mp hsort).2⟩
    have herase := hperm.erase h
    rw [List.erase_cons_head] at herase
    exact herase

/-- Two sorted permutations of the same elements agree when the keys are
injective on those elements: with no ties, every sort satisfying the contract
produces the same, uniquely determined output. -/
theorem sorted_perm_unique {β : Type} (key : β → α) :
    ∀ (l1 l2 : List β), l1.Perm l2 →
    l1.Pairwise (fun a b => key a ≤ key b) →
    l2.Pairwise (fun a b => key a ≤ key b) →
    (∀ a ∈ l1, ∀ b ∈ l1, key a = key b → a = b) →
    l1 = l2 := by
  intro l1
  induction l1 with
  | nil =>
    intro l2 hperm _ _ _
    exact (hperm.symm.eq_nil).symm
  | cons a t ih =>
    intro l2 hperm hs1 hs2 hinj
    cases l2 with
    | nil => exact absurd hperm.eq_nil (by simp)
    | cons b t2 =>
      have hbL1 : b ∈ a :: t := hperm.mem_iff.mpr (List.mem_cons_self b t2)
      have hab : a = b := by
        have haL2 : a ∈ b :: t2 := hperm.mem_iff.mp (List.mem_cons_self a t)
        have h1 : key a ≤ key b := by
          rcases List.mem_cons.mp hbL1 with heq | hbt
          · rw [heq]
          · exact (List.pairwise_cons.mp hs1).1 b hbt
        have h2 : key b ≤ key a := by
          rcases List.mem_cons.mp haL2 with heq | hat
          · rw [heq]
          · exact (List.pairwise_cons.mp hs2).1 a hat
        exact hinj a (List.mem_cons_self a t) b hbL1 (le_antisymm h1 h2)
      subst hab
      rw [ih t2 hperm.cons_inv (List.pairwise_cons.mp hs1).2
        (List.pairwise_cons.mp hs2).2
        (fun x hx z hz hkey =>
          hinj x (List.mem_cons_of_mem a hx) z (List.mem_cons_of_mem a hz) hkey)]

/-! ### Neighbor ranking rows -/

theorem rowOf_map_fun (f : ℕ → List ℕ) :
    ∀ (ids : List ℕ) (y : ℕ), y ∈ ids →
    rowOf (ids.map (fun i => (i, f i))) y = f y := by
  intro ids
  induction ids with
  | nil => intro y hy; cases hy
  | cons i rest ih =>
    intro y hy
    by_cases hiy : i = y
    · subst hiy
      simp [rowOf, List.find?_cons]
    · have hyrest : y ∈ rest := by
        rcases List.mem_cons.mp hy with h1 | h2
        · exact absurd h1.symm hiy
        · exact h2
      have hrec := ih y hyrest
      simp only [rowOf, List.map_cons, List.find?_cons] at hrec ⊢
      simp only [hiy, decide_eq_true_eq, if_false]
      simpa [hiy] using hrec

theorem rowOf_prioritize (srt : (ℕ → α) → List ℕ → List ℕ)
    (d : Point α → Point α → α) (loads : List (Load α)) (y : ℕ)
    (hy : y ∈ table_ids loads) :
    rowOf (prioritize_neighbors srt d loads) y
      = (srt (fun x => distance_table d loads y x) (table_ids loads)).tail :=
  rowOf_map_fun
    (fun i => (srt (fun x => distance_table d loads i x) (table_ids loads)).tail)
    (table_ids loads) y hy

theorem distance_table_self (d : Point α → Point α → α) (loads : List (Load α)) (y : ℕ) :
    distance_table d loads y y = 0 := by
  simp [distance_table]

theorem load_dict_lookup (loads : List (Load α))
    (hnodup : (loads.map Load.load_number).Nodup) :
    ∀ l ∈ loads, l.load_number ≠ 0 → load_dict loads l.load_number = l := by
  intro l hl hnz
  unfold load_dict
  rw [if_neg hnz]
  have hrev : l ∈ loads.reverse := List.mem_reverse.mpr hl
  cases hfind : loads.reverse.find? (fun m => decide (m.load_number = l.load_number)) with
  | none =>
    exfalso
    have := List.find?_eq_none.mp hfind l hrev
    simp at this
  | some m =>
    have hm : m ∈ loads := List.mem_reverse.mp (List.mem_of_find?_eq_some hfind)
    have hmq : m.load_number = l.load_number := by
      have := List.find?_some hfind
      simpa using this
    have hml : m = l := List.inj_on_of_nodup_map hnodup hm hl hmq
    simp [hml]

/-- Claim C7 (amended): the source sorts each row with `row.sort_values()`,
whose default kind is an unstable quicksort, so only the documented sort
contract (`SortsBy`) is assumed.  For every id `y` of the table whose
off-diagonal row entries are all strictly positive (the weakest row-wise
hypothesis under which the contract determines which column the
drop-first-column step removes: a zero off-diagonal entry ties the diagonal,
making the first sorted entry ambiguous), the ranking row for `y` contains
exactly all ids other than `y` and is sorted ascending by `table[y][x]`;
when the row's values are in addition pairwise distinct, every sort
satisfying the contract produces the same row, the ascending enumeration of
the other ids, so the result is deterministic.  The claim's stable
column-order tie-breaking is not guaranteed by the source. -/
theorem claim_C7_theorem (srt : (ℕ → α) → List ℕ → List ℕ) (hsrt : SortsBy srt)
    (d : Point α → Point α → α) (loads : List (Load α)) (y : ℕ)
    (hy : y ∈ table_ids loads)
    (hpos : ∀ x ∈ table_ids loads, x ≠ y → 0 < distance_table d loads y x) :
    (rowOf (prioritize_neighbors srt d loads) y).Perm ((table_ids loads).erase y)
    ∧ (rowOf (prioritize_neighbors srt d loads) y).Pairwise
        (fun a b => distance_table d loads y a ≤ distance_table d loads y b)
    ∧ ((∀ x1 ∈ table_ids loads, ∀ x2 ∈ table_ids loads,
          distance_table d loads y x1 = distance_table d loads y x2 → x1 = x2) →
        rowOf (prioritize_neighbors srt d loads) y
          = sortAsc (fun x => distance_table d loads y x)
              ((table_ids loads).erase y)) := by
  have hmin : ∀ x ∈ table_ids loads, x ≠ y →
      (fun x => distance_table d loads y x) y
        < (fun x => distance_table d loads y x) x := by
    intro x hx hxy
    simp only [distance_table_self]
    exact hpos x hx hxy
  rcases sorted_perm_strict_min_eq_cons (fun x => distance_table d loads y x)
      (srt (fun x => distance_table d loads y x) (table_ids loads))
      (table_ids loads) y
      (hsrt (fun x => distance_table d loads y x) (table_ids loads)).1
      (hsrt (fun x => distance_table d loads y x) (table_ids loads)).2
      hy hmin with ⟨t, hS, ht, hts⟩
  have hrow : rowOf (prioritize_neighbors srt d loads) y = t := by
    rw [rowOf_prioritize srt d loads y hy, hS]
    rfl
  refine ⟨?_, ?_, ?_⟩
  · rw [hrow]; exact ht
  · rw [hrow]; exact hts
  · intro hinj
    rw [hrow]
    refine sorted_perm_unique (fun x => distance_table d loads y x) t _
      (ht.trans (sortAsc_perm _ _).symm) hts (sortAsc_sorted _ _) ?_
    intro a ha b hb hkey
    have ha2 : a ∈ table_ids loads :=
      List.mem_of_mem_erase (ht.mem_iff.mp ha)
    have hb2 : b ∈ table_ids loads :=
      List.mem_of_mem_erase (ht.mem_iff.mp hb)
    exact hinj a ha2 b hb2 hkey

theorem claim_C7_witness :
    (rowOf (prioritize_neighbors sortAsc axisDist [wLoad1, wLoad2]) 0).Perm
        ((table_ids [wLoad1, wLoad2]).erase 0)
    ∧ (rowOf (prioritize_neighbors sortAsc axisDist [wLoad1, wLoad2]) 0).Pairwise
        (fun a b => distance_table axisDist [wLoad1, wLoad2] 0 a
          ≤ distance_table axisDist [wLoad1, wLoad2] 0 b)
    ∧ ((∀ x1 ∈ table_ids [wLoad1, wLoad2], ∀ x2 ∈ table_ids [wLoad1, wLoad2],
          distance_table axisDist [wLoad1, wLoad2] 0 x1
            = distance_table axisDist [wLoad1, wLoad2] 0 x2 → x1 = x2) →
        rowOf (prioritize_neighbors sortAsc axisDist [wLoad1, wLoad2]) 0
          = sortAsc (fun x => distance_table axisDist [wLoad1, wLoad2] 0 x)
              ((table_ids [wLoad1, wLoad2]).erase 0)) :=
  claim_C7_theorem sortAsc sortAsc_sortsBy axisDist [wLoad1, wLoad2] 0
    (by decide) (by decide)

/-- Claim C7 counterexample: with loads `1: (5,0)→(9,0)` and `2: (1,0)→(5,0)`,
load 1's pickup coincides with load 2's dropoff, so in row 2 the entry for
column 1 ties at 0 with the diagonal.  The sort is instantiated with the
stable `sortAsc`: on this 3-entry row numpy's introsort is below its
small-array cutoff and runs exactly a stable insertion sort, so this is the
program's actual behavior at this input.  The sorted row puts column 1 first
and `prioritize_neighbors` drops it instead of the self column; the ranking
row for id 2 therefore contains 2 itself and omits 1, contradicting the claim
that every row contains exactly the ids other than its own. -/
theorem claim_C7_counterexample :
    2 ∈ rowOf (prioritize_neighbors sortAsc axisDist [tieLoad1, tieLoad2]) 2
    ∧ 1 ∉ rowOf (prioritize_neighbors sortAsc axisDist [tieLoad1, tieLoad2]) 2 := by
  decide

/-! ### Claims C8, C6, C9: route-cost methods -/

/-- Claim C8: `can_fit_load(r, l)` returns true iff the total distance of `r`
with `l` appended at the end is at most 720, and the call leaves `r`
observably unchanged: the stop sequence and `total_distance()` equal their
values before the call. -/
theorem claim_C8_theorem (d : Point α → Point α → α) (dr : DriverAssignment α)
    (possible_job : Load α) :
    ((can_fit_load_run d dr possible_job).2 = true
      ↔ calc_total_distance d (dr.loads ++ [possible_job]) ≤ 12 * 60)
    ∧ (can_fit_load_run d dr possible_job).1 = dr
    ∧ (can_fit_load_run d dr possible_job).1.loads = dr.loads
    ∧ total_distance d (can_fit_load_run d dr possible_job).1
        = total_distance d dr := by
  have hfst : (can_fit_load_run d dr possible_job).1 = dr := by
    simp only [can_fit_load_run, List.dropLast_concat]
  refine ⟨?_, hfst, by rw [hfst], by rw [hfst]⟩
  simp only [can_fit_load_run, decide_eq_true_eq, ge_iff_le, sub_nonneg]

/-- Claim C6: after any sequence of `add_load` mutations the cache equals the
recomputed total, `total_distance()` equals the spec's leg-sum formula, and an
empty route has total distance 0. -/
theorem claim_C6_theorem (d : Point α → Point α → α) (h0 : d depot depot = 0)
    (init adds : List (Load α)) :
    (adds.foldl (add_load d) (mkDriver d init)).cache
        = calc_total_distance d (init ++ adds)
    ∧ total_distance d (adds.foldl (add_load d) (mkDriver d init))
        = route_leg_sum d (init ++ adds)
    ∧ total_distance d (mkDriver d ([] : List (Load α))) = 0 := by
  have hfold := foldl_add_load d adds init
  refine ⟨?_, ?_, ?_⟩
  · rw [hfold]; rfl
  · rw [hfold, total_distance_mkDriver, calc_eq_route_leg_sum d h0]
  · rw [total_distance_mkDriver, calc_total_distance_nil, h0]

theorem claim_C6_witness :
    ([wLoad2].foldl (add_load axisDist) (mkDriver axisDist [wLoad1])).cache
        = calc_total_distance axisDist ([wLoad1] ++ [wLoad2])
    ∧ total_distance axisDist ([wLoad2].foldl (add_load axisDist) (mkDriver axisDist [wLoad1]))
        = route_leg_sum axisDist ([wLoad1] ++ [wLoad2])
    ∧ total_distance axisDist (mkDriver axisDist ([] : List (Load ℤ))) = 0 :=
  claim_C6_theorem axisDist (by decide) [wLoad1] [wLoad2]

theorem axisDist_symm : ∀ p q : Point ℤ, axisDist p q = axisDist q p := by
  intro p q
  simp only [axisDist]
  split_ifs <;> omega

theorem filler_distance_mkDriver (d : Point α → Point α → α) (a : Load α)
    (rest : List (Load α)) :
    filler_distance d (mkDriver d (a :: rest))
      = some (gaps_sum d (a :: rest) + (d depot a.pickup
          + d depot ((a :: rest).getLast (List.cons_ne_nil a rest)).dropoff)) := by
  simp only [filler_distance, mkDriver, gaps_sum]
  rw [List.getLast?_eq_getLast (a :: rest) (List.cons_ne_nil a rest)]
  rfl

/-- Claim C9 (amended to routes with at least one load; the source raises
`IndexError` on an empty route): the empty-leg (filler) distance is the sum of
the depot leg, the inter-load gaps and the return leg, and equals the total
distance minus the per-load transport distances, for a symmetric metric. -/
theorem claim_C9_theorem (d : Point α → Point α → α)
    (hsymm : ∀ p q : Point α, d p q = d q p) (a : Load α) (rest : List (Load α)) :
    filler_distance d (mkDriver d (a :: rest))
        = some (d depot a.pickup + gaps_sum d (a :: rest)
            + d ((a :: rest).getLast (List.cons_ne_nil a rest)).dropoff depot)
    ∧ filler_distance d (mkDriver d (a :: rest))
        = some (total_distance d (mkDriver d (a :: rest))
            - transport_sum d (a :: rest)) := by
  have hf := filler_distance_mkDriver d a rest
  have hlast : d depot ((a :: rest).getLast (List.cons_ne_nil a rest)).dropoff
      = d ((a :: rest).getLast (List.cons_ne_nil a rest)).dropoff depot := hsymm _ _
  constructor
  · rw [hf]
    exact congrArg some (by rw [hlast]; ring)
  · rw [hf, total_distance_mkDriver, calc_total_distance_eq_calc_from,
      calc_from_cons_decomp]
    exact congrArg some (by rw [hlast]; ring)

theorem claim_C9_witness :
    filler_distance axisDist (mkDriver axisDist ([wLoad1] ++ [wLoad2]))
        = some (axisDist depot wLoad1.pickup + gaps_sum axisDist [wLoad1, wLoad2]
            + axisDist (([wLoad1, wLoad2].getLast
                (List.cons_ne_nil wLoad1 [wLoad2])).dropoff) depot)
    ∧ filler_distance axisDist (mkDriver axisDist ([wLoad1] ++ [wLoad2]))
        = some (total_distance axisDist (mkDriver axisDist ([wLoad1] ++ [wLoad2]))
            - transport_sum axisDist [wLoad1, wLoad2]) :=
  claim_C9_theorem axisDist axisDist_symm wLoad1 [wLoad2]

/-- Claim C9 counterexample: on an empty route the source's
`filler_distance` raises `IndexError` (modelled `none`), so it does not equal
`total_distance() - Σ transport` (which is 0) there; the claim's universal
quantification over every route fails. -/
theorem claim_C9_counterexample :
    filler_distance axisDist (mkDriver axisDist ([] : List (Load ℤ)))
      ≠ some (total_distance axisDist (mkDriver axisDist ([] : List (Load ℤ)))
          - transport_sum axisDist ([] : List (Load ℤ))) := by
  decide

/-! ### Claim C4: empty load list -/

/-- Claim C4 (amended): on the empty load list the nearest-neighbor
constructor returns a Solution with zero routes and cost 0, while
`GreedyPacker.solve` returns its initial single empty route, so its cost is
500, not 0. -/
theorem claim_C4_theorem (srt : (ℕ → α) → List ℕ → List ℕ) (hsrt : SortsBy srt)
    (d : Point α → Point α → α) (h0 : d depot depot = 0) :
    trip_optimizer_solve srt d ([] : List (Load α)) = []
    ∧ evaluate d (trip_optimizer_solve srt d ([] : List (Load α))) = 0
    ∧ greedy_solve d ([] : List (Load α)) = .ok [mkDriver d []]
    ∧ evaluate d [mkDriver d []] = 500 := by
  have hrow0 : rowOf (prioritize_neighbors srt d ([] : List (Load α))) 0 = [] := by
    rw [rowOf_prioritize srt d [] 0 (by simp [table_ids])]
    have hperm := (hsrt (fun x => distance_table d [] 0 x)
      (table_ids ([] : List (Load α)))).1
    have hsingle : srt (fun x => distance_table d [] 0 x)
        (table_ids ([] : List (Load α))) = [0] := List.perm_singleton.mp hperm
    rw [hsingle]
    rfl
  have htrip : trip_optimizer_solve srt d ([] : List (Load α)) = [] := by
    unfold trip_optimizer_solve pick_nearest_neighbor_routes
    rw [hrow0]
    rfl
  refine ⟨htrip, ?_, rfl, ?_⟩
  · rw [htrip]
    simp [evaluate]
  · simp [evaluate, total_distance_mkDriver, calc_total_distance_nil, h0]

theorem claim_C4_witness :
    trip_optimizer_solve sortAsc axisDist ([] : List (Load ℤ)) = []
    ∧ evaluate axisDist (trip_optimizer_solve sortAsc axisDist ([] : List (Load ℤ))) = 0
    ∧ greedy_solve axisDist ([] : List (Load ℤ)) = .ok [mkDriver axisDist []]
    ∧ evaluate axisDist [mkDriver axisDist ([] : List (Load ℤ))] = 500 :=
  claim_C4_theorem sortAsc sortAsc_sortsBy axisDist (by decide)

/-- Claim C4 counterexample: on the empty load list `GreedyPacker.solve`
returns one (empty) route, and the Solution's cost evaluates to 500, not 0. -/
theorem claim_C4_counterexample :
    greedy_solve axisDist ([] : List (Load ℤ)) = .ok [mkDriver axisDist []]
    ∧ [mkDriver axisDist ([] : List (Load ℤ))].length = 1
    ∧ evaluate axisDist [mkDriver axisDist ([] : List (Load ℤ))] = 500 := by
  refine ⟨rfl, rfl, by decide⟩

/-! ### Claim C5: stochastic improver never worse than the deterministic run -/

theorem best_foldl_spec (d : Point α → Point α → α) (loads : List (Load α))
    (f : ℕ × ℕ → List (ℕ × List ℕ)) :
    ∀ (ts : List (ℕ × ℕ)) (best : List (DriverAssignment α) × α),
    best.2 = evaluate d best.1 →
    (ts.foldl (fun b ti =>
        if pick_score d loads (f ti) < b.2
          then (pick_nearest_neighbor_routes d loads (f ti), pick_score d loads (f ti))
          else b) best).2
      = evaluate d ((ts.foldl (fun b ti =>
        if pick_score d loads (f ti) < b.2
          then (pick_nearest_neighbor_routes d loads (f ti), pick_score d loads (f ti))
          else b) best).1)
    ∧ (ts.foldl (fun b ti =>
        if pick_score d loads (f ti) < b.2
          then (pick_nearest_neighbor_routes d loads (f ti), pick_score d loads (f ti))
          else b) best).2 ≤ best.2 := by
  intro ts
  induction ts with
  | nil => intro best h; exact ⟨h, le_refl _⟩
  | cons t rest ih =>
    intro best h
    simp only [List.foldl_cons]
    by_cases hlt : pick_score d loads (f t) < best.2
    · rw [if_pos hlt]
      rcases ih (pick_nearest_neighbor_routes d loads (f t), pick_score d loads (f t))
        rfl with ⟨h1, h2⟩
      exact ⟨h1, le_trans h2 (le_of_lt hlt)⟩
    · rw [if_neg hlt]
      exact ih best h

/-- Claim C5: for every outcome of the random draws, the score of the Solution
returned by `StochasticTripOptimizer.solve` is at most the score of the single
deterministic nearest-neighbor construction run first, because a candidate only
replaces the best on a strictly smaller score. -/
theorem claim_C5_theorem (srt : (ℕ → α) → List ℕ → List ℕ)
    (d : Point α → Point α → α) (loads : List (Load α))
    (sampler : ℕ → ℕ → List ℕ → List ℕ) :
    evaluate d (stochastic_solve srt d loads sampler)
      ≤ pick_score d loads (prioritize_neighbors srt d loads) := by
  rcases best_foldl_spec d loads
      (fun ti => create_shuffled_neighbors_map (sampler ti.1)
        (prioritize_neighbors srt d loads) ti.2)
      stochastic_trials.enum
      (pick_nearest_neighbor_routes d loads (prioritize_neighbors srt d loads),
        pick_score d loads (prioritize_neighbors srt d loads)) rfl with ⟨h1, h2⟩
  exact le_trans (le_of_eq h1.symm) h2

/-! ### Claim C10: the fallible sort in the greedy packer -/

theorem insertDesc_perm {β : Type} (key : β → α) (a : β) :
    ∀ l : List β, (insertDesc key a l).Perm (a :: l) := by
  intro l
  induction l with
  | nil => exact List.Perm.refl _
  | cons b t ih =>
    simp only [insertDesc]
    split
    · exact List.Perm.refl _
    · exact (ih.cons b).trans (List.Perm.swap a b t)

theorem sortDesc_perm {β : Type} (key : β → α) :
    ∀ l : List β, (sortDesc key l).Perm l := by
  intro l
  induction l with
  | nil => exact List.Perm.refl _
  | cons a t ih =>
    exact (insertDesc_perm key a (sortDesc key t)).trans (ih.cons a)

theorem minsertDesc_tuple_ok (a : α × Load α) :
    ∀ (l : List (α × Load α)) (r : List (α × Load α)),
    minsertDesc tuple_gt a l = .ok r → r = insertDesc Prod.fst a l := by
  intro l
  induction l with
  | nil =>
    intro r h
    simp only [minsertDesc] at h
    cases h
    rfl
  | cons b t ih =>
    intro r h
    simp only [minsertDesc, tuple_gt] at h
    by_cases h1 : b.1 < a.1
    · rw [if_pos h1] at h
      cases h
      simp [insertDesc, h1]
    · rw [if_neg h1] at h
      by_cases h2 : a.1 < b.1
      · rw [if_pos h2] at h
        cases hm : minsertDesc tuple_gt a t with
        | error e => rw [hm] at h; cases h
        | ok r2 =>
          rw [hm] at h
          cases h
          rw [insertDesc, if_neg h1, ih r2 hm]
      · rw [if_neg h2] at h
        cases h

theorem msortDesc_tuple_ok :
    ∀ (l : List (α × Load α)) (r : List (α × Load α)),
    msortDesc tuple_gt l = .ok r → r = sortDesc Prod.fst l := by
  intro l
  induction l with
  | nil =>
    intro r h
    simp only [msortDesc] at h
    cases h
    rfl
  | cons a t ih =>
    intro r h
    simp only [msortDesc] at h
    cases hm : msortDesc tuple_gt t with
    | error e => rw [hm] at h; cases h
    | ok r2 =>
      rw [hm] at h
      rw [minsertDesc_tuple_ok a r2 r h, ih r2 hm]
      rfl

theorem minsertDesc_tuple_total (a : α × Load α) :
    ∀ (l : List (α × Load α)), (∀ b ∈ l, a.1 ≠ b.1) →
    minsertDesc tuple_gt a l = .ok (insertDesc Prod.fst a l) := by
  intro l
  induction l with
  | nil => intro _; rfl
  | cons b t ih =>
    intro hne
    have hab : a.1 ≠ b.1 := hne b (List.mem_cons_self b t)
    rcases lt_or_gt_of_ne hab with hlt | hgt
    · have h1 : ¬ b.1 < a.1 := not_lt_of_gt hlt
      simp only [minsertDesc, tuple_gt, if_neg h1, if_pos hlt]
      rw [ih (fun c hc => hne c (List.mem_cons_of_mem b hc))]
      simp [insertDesc, h1]
    · simp only [minsertDesc, tuple_gt, if_pos hgt]
      simp [insertDesc, hgt]

theorem msortDesc_tuple_total :
    ∀ (l : List (α × Load α)), l.Pairwise (fun u v => u.1 ≠ v.1) →
    msortDesc tuple_gt l = .ok (sortDesc Prod.fst l) := by
  intro l
  induction l with
  | nil => intro _; rfl
  | cons a t ih =>
    intro hp
    rcases List.pairwise_cons.mp hp with ⟨ha, ht⟩
    simp only [msortDesc]
    rw [ih ht]
    have hmem : ∀ b ∈ sortDesc (Prod.fst : α × Load α → α) t, a.1 ≠ b.1 :=
      fun b hb => ha b ((sortDesc_perm Prod.fst t).mem_iff.mp hb)
    show minsertDesc tuple_gt a (sortDesc Prod.fst t) = .ok (sortDesc Prod.fst (a :: t))
    rw [minsertDesc_tuple_total a _ hmem]
    rfl

/-- Claim C10: `GreedyPacker.solve` is total on load lists with pairwise
distinct transport distances (the fallible tuple sort then never compares two
`Load` objects), and there is an input with two equal-distance loads on which
the sort comparison falls through to the `Load` objects and `solve` raises
`TypeError` instead of returning a Solution. -/
theorem claim_C10_theorem (d : Point α → Point α → α) (loads : List (Load α))
    (hdist : (loads.map (Load.dist d)).Pairwise (fun u v => u ≠ v)) :
    (∃ out, greedy_solve d loads = .ok out)
    ∧ greedy_solve axisDist [eqLoad1, eqLoad2] = .error ()
    ∧ Load.dist axisDist eqLoad1 = Load.dist axisDist eqLoad2 := by
  refine ⟨?_, rfl, rfl⟩
  have hp : (loads.map (fun l => (Load.dist d l, l))).Pairwise
      (fun u v => u.1 ≠ v.1) := by
    rw [List.pairwise_map]
    rw [List.pairwise_map] at hdist
    exact hdist
  refine ⟨(sortDesc Prod.fst (loads.map (fun l => (Load.dist d l, l)))).foldl
      (fun acc pair => greedy_place d acc pair.2) [mkDriver d []], ?_⟩
  simp only [greedy_solve, msortDesc_tuple_total _ hp]

theorem claim_C10_witness :
    ((∃ out, greedy_solve axisDist [bigLoad1, bigLoad2] = .ok out)
    ∧ greedy_solve axisDist [eqLoad1, eqLoad2] = .error ()
    ∧ Load.dist axisDist eqLoad1 = Load.dist axisDist eqLoad2) :=
  claim_C10_theorem axisDist [bigLoad1, bigLoad2] (by decide)

theorem calc_singleton (d : Point α → Point α → α) (l : Load α) :
    calc_total_distance d [l] = round_trip d l := by
  rw [calc_total_distance_eq_calc_from]
  simp only [calc_from, round_trip]

theorem total_distance_add_load (d : Point α → Point α → α)
    (dr : DriverAssignment α) (l : Load α) :
    total_distance d (add_load d dr l) = calc_total_distance d (dr.loads ++ [l]) :=
  total_distance_mkDriver d (dr.loads ++ [l])

theorem can_fit_load_le (d : Point α → Point α → α) (dr : DriverAssignment α)
    (l : Load α) (h : can_fit_load d dr l = true) :
    calc_total_distance d (dr.loads ++ [l]) ≤ 12 * 60 := by
  simp only [can_fit_load, can_fit_load_run, decide_eq_true_eq, ge_iff_le,
    sub_nonneg] at h
  exact h

theorem nn_extend_go_budget (d : Point α → Point α → α) (loads : List (Load α))
    (nm : List (ℕ × List ℕ)) :
    ∀ (fuel : ℕ) (driver : DriverAssignment α) (allocated : Finset ℕ) (current : ℕ),
    (nn_extend_go d loads nm fuel driver allocated current).1 = driver
    ∨ total_distance d (nn_extend_go d loads nm fuel driver allocated current).1
        ≤ 12 * 60 := by
  intro fuel
  induction fuel with
  | zero => intro driver allocated current; exact Or.inl rfl
  | succ n ih =>
    intro driver allocated current
    simp only [nn_extend_go]
    by_cases htot : total_distance d driver < 12 * 60
    · rw [if_pos htot]
      cases hfind : (rowOf nm current).find? (nn_guard d loads driver allocated) with
      | none => exact Or.inl rfl
      | some x =>
        rcases ih (add_load d driver (load_dict loads x)) (insert x allocated) x
          with h | h
        · right
          rw [h]
          have hg : nn_guard d loads driver allocated x = true := List.find?_some hfind
          simp only [nn_guard, Bool.and_eq_true] at hg
          rw [total_distance_add_load]
          exact can_fit_load_le d driver (load_dict loads x) hg.2
        · exact Or.inr h
    · rw [if_neg htot]; exact Or.inl rfl

theorem nn_pick_fold_budget (d : Point α → Point α → α) (loads : List (Load α))
    (nm : List (ℕ × List ℕ)) :
    ∀ (js : List ℕ) (st : List (DriverAssignment α) × Finset ℕ),
    (∀ dr ∈ st.1, total_distance d dr ≤ 12 * 60
       ∨ ∃ l, dr.loads = [l] ∧ total_distance d dr = round_trip d l) →
    ∀ dr ∈ (js.foldl (nn_pick_step d loads nm) st).1,
    total_distance d dr ≤ 12 * 60
      ∨ ∃ l, dr.loads = [l] ∧ total_distance d dr = round_trip d l := by
  intro js
  induction js with
  | nil => intro st h; exact h
  | cons j rest ih =>
    intro st h
    simp only [List.foldl_cons]
    apply ih
    unfold nn_pick_step
    by_cases hj : j ∈ st.2
    · rw [if_pos hj]; exact h
    · rw [if_neg hj]
      intro dr hdr
      rcases List.mem_append.mp hdr with hdr1 | hdr2
      · exact h dr hdr1
      · have hdr3 : dr = (nn_extend d loads nm
            (mkDriver d [load_dict loads j]) (insert j st.2) j).1 := by
          simpa using hdr2
        rcases nn_extend_go_budget d loads nm _
            (mkDriver d [load_dict loads j]) (insert j st.2) j with h1 | h1
        · right
          refine ⟨load_dict loads j, ?_, ?_⟩
          · rw [hdr3]
            show (nn_extend_go d loads nm _ _ _ _).1.loads = _
            rw [h1]
            rfl
          · rw [hdr3]
            show total_distance d (nn_extend_go d loads nm _ _ _ _).1 = _
            rw [h1, total_distance_mkDriver, calc_singleton]
        · left
          rw [hdr3]
          exact h1

/-- Claim C2 (amended to the nearest-neighbor constructor, on any neighbor
map, hence also every run inside the Stochastic Improver): every returned
route has `total_distance() ≤ 720` except a route consisting of exactly one
load whose own forced round trip exceeds 720.  For `GreedyPacker.solve` the
property fails (see the counterexample): its feasibility check compares only
the arrival cost with the remaining time, ignoring transport and return
legs. -/
theorem claim_C2_theorem (d : Point α → Point α → α) (loads : List (Load α))
    (nm : List (ℕ × List ℕ)) (driver : DriverAssignment α)
    (hmem : driver ∈ pick_nearest_neighbor_routes d loads nm) :
    total_distance d driver ≤ 12 * 60
    ∨ ∃ l, driver.loads = [l] ∧ 12 * 60 < round_trip d l := by
  have h := nn_pick_fold_budget d loads nm (rowOf nm 0) ([], ∅)
    (by intro dr hdr; cases hdr) driver hmem
  rcases h with h1 | ⟨l, hl, hrt⟩
  · exact Or.inl h1
  · by_cases hle : total_distance d driver ≤ 12 * 60
    · exact Or.inl hle
    · exact Or.inr ⟨l, hl, hrt ▸ lt_of_not_ge hle⟩

theorem claim_C2_witness :
    total_distance axisDist (mkDriver axisDist [wLoad1]) ≤ 12 * 60
    ∨ ∃ l, (mkDriver axisDist [wLoad1]).loads = [l]
        ∧ 12 * 60 < round_trip axisDist l :=
  claim_C2_theorem axisDist [wLoad1] (prioritize_neighbors sortAsc axisDist [wLoad1])
    (mkDriver axisDist [wLoad1]) (by decide)

/-- Claim C2 counterexample: `GreedyPacker.solve` on the two loads
`1: (10,0)→(310,0)` and `2: (320,0)→(615,0)` returns a single route holding
both loads whose total distance is 1230 > 720, because the greedy feasibility
check ignores the transport leg; the claim's budget guarantee fails for the
greedy constructor. -/
theorem claim_C2_counterexample :
    greedy_solve axisDist [bigLoad1, bigLoad2]
      = .ok [mkDriver axisDist [bigLoad1, bigLoad2]]
    ∧ (mkDriver axisDist [bigLoad1, bigLoad2]).loads.length = 2
    ∧ total_distance axisDist (mkDriver axisDist [bigLoad1, bigLoad2]) = 1230
    ∧ ¬ (total_distance axisDist (mkDriver axisDist [bigLoad1, bigLoad2]) ≤ 12 * 60
        ∨ ∃ l, (mkDriver axisDist [bigLoad1, bigLoad2]).loads = [l]
            ∧ 12 * 60 < round_trip axisDist l) := by
  refine ⟨rfl, rfl, by decide, ?_⟩
  intro h
  rcases h with h1 | ⟨l, hl, _⟩
  · exact absurd h1 (by decide)
  · simp [mkDriver] at hl

/-! ### Claim C3: the greedy packer's placement rule -/

theorem insertDesc_sorted {β : Type} (key : β → α) (a : β) :
    ∀ {l : List β}, l.Pairwise (fun u v => key v ≤ key u) →
    (insertDesc key a l).Pairwise (fun u v => key v ≤ key u) := by
  intro l
  induction l with
  | nil => intro _; simp [insertDesc]
  | cons b t ih =>
    intro hl
    rcases List.pairwise_cons.mp hl with ⟨hb, ht⟩
    simp only [insertDesc]
    split
    · rename_i hba
      refine List.pairwise_cons.mpr ⟨?_, hl⟩
      intro z hz
      rcases List.mem_cons.mp hz with hz1 | hz2
      · exact hz1 ▸ le_of_lt hba
      · exact le_trans (hb z hz2) (le_of_lt hba)
    · rename_i hba
      refine List.pairwise_cons.mpr ⟨?_, ih ht⟩
      intro z hz
      rcases List.mem_cons.mp ((insertDesc_perm key a t).mem_iff.mp hz) with hz1 | hz2
      · exact hz1 ▸ le_of_not_lt hba
      · exact hb z hz2

theorem sortDesc_sorted {β : Type} (key : β → α) :
    ∀ l : List β, (sortDesc key l).Pairwise (fun u v => key v ≤ key u) := by
  intro l
  induction l with
  | nil => simp [sortDesc]
  | cons a t ih => exact insertDesc_sorted key a ih

theorem greedy_place_eq_try (d : Point α → Point α → α)
    (asgs : List (DriverAssignment α)) (load : Load α) :
    greedy_place d asgs load = try_candidates d load asgs
      (sortAsc (fun i => arrival_cost d (asgs.getD i ⟨[], 0⟩) load)
        (List.range asgs.length)) := by
  have hgen : ∀ cands : List ℕ,
      (match cands.find? (fun i => decide (arrival_cost d (asgs.getD i ⟨[], 0⟩) load
          < time_remaining d (asgs.getD i ⟨[], 0⟩))) with
       | some i => asgs.set i (add_load d (asgs.getD i ⟨[], 0⟩) load)
       | none => asgs ++ [mkDriver d [load]])
      = try_candidates d load asgs cands := by
    intro cands
    induction cands with
    | nil => rfl
    | cons i rest ih =>
      by_cases hcond : arrival_cost d (asgs.getD i ⟨[], 0⟩) load
          < time_remaining d (asgs.getD i ⟨[], 0⟩)
      · rw [List.find?_cons_of_pos _ (by simpa using hcond)]
        simp only [try_candidates]
        rw [if_pos hcond]
      · rw [List.find?_cons_of_neg _ (by simpa using hcond)]
        simp only [try_candidates]
        rw [if_neg hcond]
        exact ih
  exact hgen _

theorem insertDesc_map_pairs (d : Point α → Point α → α) (a : Load α) :
    ∀ t : List (Load α),
    insertDesc (Prod.fst : α × Load α → α) (Load.dist d a, a)
        (t.map (fun l => (Load.dist d l, l)))
      = (insertDesc (Load.dist d) a t).map (fun l => (Load.dist d l, l)) := by
  intro t
  induction t with
  | nil => rfl
  | cons b rest ih =>
    simp only [List.map_cons, insertDesc]
    by_cases hcond : Load.dist d b < Load.dist d a
    · rw [if_pos hcond, if_pos hcond]
      rfl
    · rw [if_neg hcond, if_neg hcond, List.map_cons, ih]

theorem sortDesc_map_pairs (d : Point α → Point α → α) :
    ∀ loads : List (Load α),
    sortDesc (Prod.fst : α × Load α → α) (loads.map (fun l => (Load.dist d l, l)))
      = (sortDesc (Load.dist d) loads).map (fun l => (Load.dist d l, l)) := by
  intro loads
  induction loads with
  | nil => rfl
  | cons a t ih =>
    simp only [List.map_cons, sortDesc, ih]
    exact insertDesc_map_pairs d a (sortDesc (Load.dist d) t)

theorem greedy_core_eq_described (d : Point α → Point α → α)
    (loads : List (Load α)) :
    greedy_core d (sortDesc Prod.fst (loads.map (fun l => (Load.dist d l, l))))
      = greedy_packer_described d loads := by
  unfold greedy_core greedy_packer_described
  rw [sortDesc_map_pairs, List.foldl_map]
  simp only [greedy_place_eq_try]

/-- Claim C3 (amended): on loads with pairwise distinct transport distances,
`GreedyPacker.solve` processes loads in descending order of transport
distance and, for each load, tries open routes in ascending arrival cost,
appending to the first whose arrival cost alone is strictly below its
remaining time (the claimed transport term is not part of the check), opening
a new single-load route otherwise. -/
theorem claim_C3_theorem (d : Point α → Point α → α) (loads : List (Load α))
    (hdist : (loads.map (Load.dist d)).Pairwise (fun u v => u ≠ v)) :
    greedy_solve d loads = .ok (greedy_packer_described d loads)
    ∧ (sortDesc (Load.dist d) loads).Pairwise
        (fun u v => Load.dist d v ≤ Load.dist d u)
    ∧ (sortDesc (Load.dist d) loads).Perm loads := by
  have hp : (loads.map (fun l => (Load.dist d l, l))).Pairwise
      (fun u v => u.1 ≠ v.1) := by
    rw [List.pairwise_map]
    rw [List.pairwise_map] at hdist
    exact hdist
  refine ⟨?_, sortDesc_sorted _ _, sortDesc_perm _ _⟩
  show greedy_solve d loads = .ok (greedy_packer_described d loads)
  unfold greedy_solve
  rw [msortDesc_tuple_total _ hp]
  show Except.ok (greedy_core d (sortDesc Prod.fst
      (loads.map (fun l => (Load.dist d l, l))))) = _
  rw [greedy_core_eq_described d loads]

theorem claim_C3_witness :
    greedy_solve axisDist [bigLoad1, bigLoad2]
      = .ok (greedy_packer_described axisDist [bigLoad1, bigLoad2])
    ∧ (sortDesc (Load.dist axisDist) [bigLoad1, bigLoad2]).Pairwise
        (fun u v => Load.dist axisDist v ≤ Load.dist axisDist u)
    ∧ (sortDesc (Load.dist axisDist) [bigLoad1, bigLoad2]).Perm
        [bigLoad1, bigLoad2] :=
  claim_C3_theorem axisDist [bigLoad1, bigLoad2] (by decide)

/-- Claim C3 counterexample: with loads `1: (10,0)→(310,0)` (transport 300)
and `2: (320,0)→(615,0)` (transport 295), the greedy packer appends load 2 to
the route already holding load 1 although the time remaining after adding
both the arrival distance (10) and the transport distance (295) is negative
(100 - 305 = -205): the code's check ignores the transport term, so the
claimed placement rule is not the implemented one. -/
theorem claim_C3_counterexample :
    greedy_solve axisDist [bigLoad1, bigLoad2]
      = .ok [mkDriver axisDist [bigLoad1, bigLoad2]]
    ∧ time_remaining axisDist (mkDriver axisDist [bigLoad1])
        - (arrival_cost axisDist (mkDriver axisDist [bigLoad1]) bigLoad2
          + Load.dist axisDist bigLoad2) < 0 := by
  exact ⟨rfl, by decide⟩

theorem all_loads_nil : all_loads ([] : List (DriverAssignment α)) = [] := rfl

theorem all_loads_append (asgs1 asgs2 : List (DriverAssignment α)) :
    all_loads (asgs1 ++ asgs2) = all_loads asgs1 ++ all_loads asgs2 := by
  simp [all_loads]

theorem all_loads_set_add (d : Point α → Point α → α) :
    ∀ (asgs : List (DriverAssignment α)) (i : ℕ), i < asgs.length →
    ∀ (load : Load α),
    (all_loads (asgs.set i (add_load d (asgs.getD i ⟨[], 0⟩) load))).Perm
      (load :: all_loads asgs) := by
  intro asgs
  induction asgs with
  | nil => intro i hi; exact absurd hi (by simp)
  | cons dr rest ih =>
    intro i hi load
    cases i with
    | zero =>
      show (all_loads (add_load d dr load :: rest)).Perm (load :: all_loads (dr :: rest))
      have h1 : all_loads (add_load d dr load :: rest)
          = dr.loads ++ (load :: all_loads rest) := by
        simp [all_loads, add_load]
      have h2 : all_loads (dr :: rest) = dr.loads ++ all_loads rest := by
        simp [all_loads]
      rw [h1, h2]
      exact List.perm_middle
    | succ j =>
      have hj : j < rest.length := by simpa using hi
      show (all_loads (dr :: rest.set j (add_load d (rest.getD j ⟨[], 0⟩) load))).Perm
        (load :: all_loads (dr :: rest))
      have h1 : all_loads (dr :: rest.set j (add_load d (rest.getD j ⟨[], 0⟩) load))
          = dr.loads ++ all_loads (rest.set j (add_load d (rest.getD j ⟨[], 0⟩) load)) := by
        simp [all_loads]
      have h2 : all_loads (dr :: rest) = dr.loads ++ all_loads rest := by
        simp [all_loads]
      rw [h1, h2]
      exact ((ih j hj load).append_left dr.loads).trans List.perm_middle

theorem all_loads_greedy_place (d : Point α → Point α → α)
    (asgs : List (DriverAssignment α)) (load : Load α) :
    (all_loads (greedy_place d asgs load)).Perm (load :: all_loads asgs) := by
  rw [greedy_place_eq_try]
  generalize hc : sortAsc (fun i => arrival_cost d (asgs.getD i ⟨[], 0⟩) load)
    (List.range asgs.length) = cands
  have hmem : ∀ i ∈ cands, i < asgs.length := by
    intro i hi
    rw [← hc] at hi
    exact List.mem_range.mp ((sortAsc_perm _ _).mem_iff.mp hi)
  clear hc
  induction cands with
  | nil =>
    simp only [try_candidates, all_loads_append]
    have : all_loads [mkDriver d [load]] = [load] := rfl
    rw [this]
    exact List.perm_append_singleton load (all_loads asgs)
  | cons i rest ih =>
    simp only [try_candidates]
    by_cases hcond : arrival_cost d (asgs.getD i ⟨[], 0⟩) load
        < time_remaining d (asgs.getD i ⟨[], 0⟩)
    · rw [if_pos hcond]
      exact all_loads_set_add d asgs i (hmem i (List.mem_cons_self i rest)) load
    · rw [if_neg hcond]
      exact ih (fun i2 hi2 => hmem i2 (List.mem_cons_of_mem i hi2))

theorem greedy_core_coverage (d : Point α → Point α → α) :
    ∀ (pairs : List (α × Load α)) (asgs : List (DriverAssignment α)),
    (all_loads (pairs.foldl (fun acc pair => greedy_place d acc pair.2) asgs)).Perm
      (pairs.map Prod.snd ++ all_loads asgs) := by
  intro pairs
  induction pairs with
  | nil => intro asgs; exact List.Perm.refl _
  | cons p rest ih =>
    intro asgs
    simp only [List.foldl_cons, List.map_cons]
    refine (ih (greedy_place d asgs p.2)).trans ?_
    refine ((all_loads_greedy_place d asgs p.2).append_left (rest.map Prod.snd)).trans ?_
    exact List.perm_middle

theorem greedy_coverage (d : Point α → Point α → α) (loads : List (Load α))
    (out : List (DriverAssignment α)) (hok : greedy_solve d loads = .ok out) :
    (all_loads out).Perm loads := by
  unfold greedy_solve at hok
  cases hm : msortDesc tuple_gt (loads.map fun l => (Load.dist d l, l)) with
  | error e => rw [hm] at hok; cases hok
  | ok s =>
    rw [hm] at hok
    cases hok
    refine (greedy_core_coverage d s [mkDriver d []]).trans ?_
    have h1 : all_loads [mkDriver d ([] : List (Load α))] = [] := rfl
    rw [h1, List.append_nil]
    have hs := msortDesc_tuple_ok _ s hm
    rw [hs]
    have hperm : (sortDesc (Prod.fst : α × Load α → α)
        (loads.map fun l => (Load.dist d l, l))).Perm
        (loads.map fun l => (Load.dist d l, l)) := sortDesc_perm _ _
    refine (hperm.map Prod.snd).trans ?_
    have hid : (loads.map fun l => (Load.dist d l, l)).map Prod.snd = loads := by
      rw [List.map_map]
      exact List.map_id loads
    rw [hid]

theorem nn_extend_go_spec (d : Point α → Point α → α) (loads : List (Load α))
    (nm : List (ℕ × List ℕ)) :
    ∀ (fuel : ℕ) (driver : DriverAssignment α) (allocated : Finset ℕ) (current : ℕ),
    (nmEntries nm \ allocated).card < fuel →
    ∃ extra : List ℕ,
      (nn_extend_go d loads nm fuel driver allocated current).1.loads
          = driver.loads ++ extra.map (load_dict loads)
      ∧ (nn_extend_go d loads nm fuel driver allocated current).2
          = allocated ∪ extra.toFinset
      ∧ extra.Nodup
      ∧ (∀ i ∈ extra, i ∉ allocated ∧ i ≠ 0 ∧ ∃ y, i ∈ rowOf nm y) := by
  intro fuel
  induction fuel with
  | zero => intro driver allocated current h; exact absurd h (by omega)
  | succ n ih =>
    intro driver allocated current hfuel
    simp only [nn_extend_go]
    by_cases htot : total_distance d driver < 12 * 60
    · rw [if_pos htot]
      cases hfind : (rowOf nm current).find? (nn_guard d loads driver allocated) with
      | none =>
        exact ⟨[], by simp, by simp, List.nodup_nil, by simp⟩
      | some x =>
        have hxrow : x ∈ rowOf nm current := List.mem_of_find?_eq_some hfind
        have hg : nn_guard d loads driver allocated x = true := List.find?_some hfind
        simp only [nn_guard, Bool.and_eq_true, decide_eq_true_eq] at hg
        have hxA : x ∉ allocated := hg.1.1
        have hx0 : x ≠ 0 := hg.1.2
        have hxE : x ∈ nmEntries nm := mem_nmEntries_of_mem_rowOf hxrow
        have hcard : (nmEntries nm \ insert x allocated).card < n := by
          have hsub : nmEntries nm \ insert x allocated ⊆ nmEntries nm \ allocated :=
            Finset.sdiff_subset_sdiff (le_refl _) (Finset.subset_insert x allocated)
          have hlt : (nmEntries nm \ insert x allocated).card
              < (nmEntries nm \ allocated).card := by
            apply Finset.card_lt_card
            refine (Finset.ssubset_iff_of_subset hsub).mpr
              ⟨x, Finset.mem_sdiff.mpr ⟨hxE, hxA⟩, ?_⟩
            simp [Finset.mem_sdiff]
          omega
        rcases ih (add_load d driver (load_dict loads x)) (insert x allocated) x hcard
          with ⟨extra, h1, h2, h3, h4⟩
        refine ⟨x :: extra, ?_, ?_, ?_, ?_⟩
        · rw [h1]
          show (driver.loads ++ [load_dict loads x]) ++ extra.map (load_dict loads) = _
          rw [List.append_assoc]
          rfl
        · rw [h2, List.toFinset_cons, Finset.insert_union, Finset.union_insert]
        · refine List.nodup_cons.mpr ⟨?_, h3⟩
          intro hmem
          exact (h4 x hmem).1 (Finset.mem_insert_self x allocated)
        · intro i hi
          rcases List.mem_cons.mp hi with heq | hi2
          · subst heq
            exact ⟨hxA, hx0, current, hxrow⟩
          · rcases h4 i hi2 with ⟨hiA, hi0, hy⟩
            exact ⟨fun hmem => hiA (Finset.mem_insert_of_mem hmem), hi0, hy⟩
    · rw [if_neg htot]
      exact ⟨[], by simp, by simp, List.nodup_nil, by simp⟩

theorem nn_extend_spec (d : Point α → Point α → α) (loads : List (Load α))
    (nm : List (ℕ × List ℕ)) (driver : DriverAssignment α) (allocated : Finset ℕ)
    (current : ℕ) :
    ∃ extra : List ℕ,
      (nn_extend d loads nm driver allocated current).1.loads
          = driver.loads ++ extra.map (load_dict loads)
      ∧ (nn_extend d loads nm driver allocated current).2
          = allocated ∪ extra.toFinset
      ∧ extra.Nodup
      ∧ (∀ i ∈ extra, i ∉ allocated ∧ i ≠ 0 ∧ ∃ y, i ∈ rowOf nm y) :=
  nn_extend_go_spec d loads nm _ driver allocated current (Nat.lt_succ_self _)

theorem pick_fold_spec (d : Point α → Point α → α) (loads : List (Load α))
    (nm : List (ℕ × List ℕ)) :
    ∀ (js : List ℕ) (st : List (DriverAssignment α) × Finset ℕ) (ids : List ℕ),
    all_loads st.1 = ids.map (load_dict loads) →
    st.2 = ids.toFinset →
    ids.Nodup →
    (∀ i ∈ ids, i ≠ 0 ∧ ∃ y, i ∈ rowOf nm y) →
    (∀ j ∈ js, j ≠ 0 ∧ ∃ y, j ∈ rowOf nm y) →
    ∃ ids2 : List ℕ,
      all_loads (js.foldl (nn_pick_step d loads nm) st).1
          = ids2.map (load_dict loads)
      ∧ (js.foldl (nn_pick_step d loads nm) st).2 = ids2.toFinset
      ∧ ids2.Nodup
      ∧ (∀ i ∈ ids2, i ≠ 0 ∧ ∃ y, i ∈ rowOf nm y)
      ∧ (∀ i ∈ ids, i ∈ ids2)
      ∧ (∀ j ∈ js, j ∈ ids2) := by
  intro js
  induction js with
  | nil =>
    intro st ids h1 h2 h3 h4 _
    exact ⟨ids, h1, h2, h3, h4, fun i hi => hi, by simp⟩
  | cons j rest ih =>
    intro st ids h1 h2 h3 h4 hjs
    simp only [List.foldl_cons]
    by_cases hj : j ∈ st.2
    · have hstep : nn_pick_step d loads nm st j = st := by
        unfold nn_pick_step; rw [if_pos hj]
      rw [hstep]
      rcases ih st ids h1 h2 h3 h4
        (fun x hx => hjs x (List.mem_cons_of_mem j hx)) with
        ⟨ids2, g1, g2, g3, g4, g5, g6⟩
      refine ⟨ids2, g1, g2, g3, g4, g5, ?_⟩
      intro x hx
      rcases List.mem_cons.mp hx with heq | hx2
      · subst heq
        rw [h2] at hj
        exact g5 x (List.mem_toFinset.mp hj)
      · exact g6 x hx2
    · have hstep : nn_pick_step d loads nm st j
          = (st.1 ++ [(nn_extend d loads nm (mkDriver d [load_dict loads j])
                (insert j st.2) j).1],
              (nn_extend d loads nm (mkDriver d [load_dict loads j])
                (insert j st.2) j).2) := by
        unfold nn_pick_step; rw [if_neg hj]
      rw [hstep]
      rcases nn_extend_spec d loads nm (mkDriver d [load_dict loads j])
        (insert j st.2) j with ⟨extra, e1, e2, e3, e4⟩
      have hjids : j ∉ ids := fun hmem => hj (h2 ▸ List.mem_toFinset.mpr hmem)
      have hextra_st : ∀ i ∈ extra, i ∉ ids ∧ i ≠ j := by
        intro i hi
        rcases e4 i hi with ⟨hiA, _, _⟩
        constructor
        · intro hmem
          exact hiA (Finset.mem_insert_of_mem (h2 ▸ List.mem_toFinset.mpr hmem))
        · intro heq
          exact hiA (heq ▸ Finset.mem_insert_self j st.2)
      have h1' : all_loads (st.1 ++ [(nn_extend d loads nm
            (mkDriver d [load_dict loads j]) (insert j st.2) j).1])
          = (ids ++ j :: extra).map (load_dict loads) := by
        rw [all_loads_append, h1, List.map_append]
        congr 1
        have hsingle : all_loads [(nn_extend d loads nm
            (mkDriver d [load_dict loads j]) (insert j st.2) j).1]
            = (nn_extend d loads nm (mkDriver d [load_dict loads j])
              (insert j st.2) j).1.loads := by
          simp [all_loads]
        rw [hsingle, e1]
        rfl
      have h2' : (nn_extend d loads nm (mkDriver d [load_dict loads j])
            (insert j st.2) j).2 = (ids ++ j :: extra).toFinset := by
        rw [e2, h2, List.toFinset_append, List.toFinset_cons,
          Finset.insert_union, Finset.union_insert]
      have h3' : (ids ++ j :: extra).Nodup := by
        rw [List.nodup_append]
        refine ⟨h3, ?_, ?_⟩
        · refine List.nodup_cons.mpr ⟨?_, e3⟩
          intro hmem
          exact (hextra_st j hmem).2 rfl
        · intro a ha hb
          rcases List.mem_cons.mp hb with heq | hb2
          · exact hjids (heq ▸ ha)
          · exact (hextra_st a hb2).1 ha
      have h4' : ∀ i ∈ ids ++ j :: extra, i ≠ 0 ∧ ∃ y, i ∈ rowOf nm y := by
        intro i hi
        rcases List.mem_append.mp hi with hi1 | hi2
        · exact h4 i hi1
        · rcases List.mem_cons.mp hi2 with heq | hi3
          · exact heq ▸ hjs j (List.mem_cons_self j rest)
          · rcases e4 i hi3 with ⟨_, hi0, hy⟩
            exact ⟨hi0, hy⟩
      rcases ih (st.1 ++ [(nn_extend d loads nm (mkDriver d [load_dict loads j])
            (insert j st.2) j).1],
          (nn_extend d loads nm (mkDriver d [load_dict loads j])
            (insert j st.2) j).2) (ids ++ j :: extra) h1' h2' h3' h4'
        (fun x hx => hjs x (List.mem_cons_of_mem j hx)) with
        ⟨ids2, g1, g2, g3, g4, g5, g6⟩
      refine ⟨ids2, g1, g2, g3, g4, ?_, ?_⟩
      · intro i hi
        exact g5 i (List.mem_append.mpr (Or.inl hi))
      · intro x hx
        rcases List.mem_cons.mp hx with heq | hx2
        · subst heq
          exact g5 x (List.mem_append.mpr (Or.inr (List.mem_cons_self x extra)))
        · exact g6 x hx2

theorem pick_coverage (d : Point α → Point α → α) (loads : List (Load α))
    (nm : List (ℕ × List ℕ))
    (hids : (loads.map Load.load_number).Nodup)
    (hnz : ∀ l ∈ loads, l.load_number ≠ 0)
    (hrow0 : ∀ x, x ∈ rowOf nm 0 ↔ x ∈ loads.map Load.load_number)
    (hrows : ∀ y x, x ∈ rowOf nm y → x = 0 ∨ x ∈ loads.map Load.load_number) :
    (all_loads (pick_nearest_neighbor_routes d loads nm)).Perm loads := by
  have hjs : ∀ j ∈ rowOf nm 0, j ≠ 0 ∧ ∃ y, j ∈ rowOf nm y := by
    intro j hj
    refine ⟨?_, 0, hj⟩
    rcases List.mem_map.mp ((hrow0 j).mp hj) with ⟨l, hl, heq⟩
    exact heq ▸ hnz l hl
  rcases pick_fold_spec d loads nm (rowOf nm 0) ([], ∅) []
    (by simp [all_loads]) (by simp) List.nodup_nil (by simp) hjs with
    ⟨ids2, h1, h2, h3, h4, _, h6⟩
  have hids2sub : ∀ i ∈ ids2, i ∈ loads.map Load.load_number := by
    intro i hi
    rcases h4 i hi with ⟨h0, y, hrow⟩
    rcases hrows y i hrow with heq | hmem
    · exact absurd heq h0
    · exact hmem
  have hperm_ids : ids2.Perm (loads.map Load.load_number) :=
    (List.perm_ext_iff_of_nodup h3 hids).mpr
      (fun a => ⟨fun h => hids2sub a h, fun h => h6 a ((hrow0 a).mpr h)⟩)
  show (all_loads ((rowOf nm 0).foldl (nn_pick_step d loads nm) ([], ∅)).1).Perm loads
  rw [h1]
  refine (hperm_ids.map (load_dict loads)).trans ?_
  have heq : (loads.map Load.load_number).map (load_dict loads) = loads := by
    rw [List.map_map]
    have : ∀ l ∈ loads, (load_dict loads ∘ Load.load_number) l = id l := by
      intro l hl
      exact load_dict_lookup loads hids l hl (hnz l hl)
    rw [List.map_congr_left this, List.map_id]
  rw [heq]

theorem rowOf_prioritize_not_mem (srt : (ℕ → α) → List ℕ → List ℕ)
    (d : Point α → Point α → α)
    (loads : List (Load α)) (y : ℕ) (hy : y ∉ table_ids loads) :
    rowOf (prioritize_neighbors srt d loads) y = [] := by
  unfold rowOf
  have hnone : (prioritize_neighbors srt d loads).find? (fun p => p.1 = y) = none := by
    apply List.find?_eq_none.mpr
    intro p hp
    rcases List.mem_map.mp hp with ⟨i, hi, heq⟩
    simp only [decide_eq_true_eq]
    intro hpy
    apply hy
    rw [← hpy, ← heq]
    exact hi
  rw [hnone]
  rfl

theorem row0_prioritize_perm (srt : (ℕ → α) → List ℕ → List ℕ)
    (hsrt : SortsBy srt) (d : Point α → Point α → α) (loads : List (Load α))
    (hids : (loads.map Load.load_number).Nodup)
    (hnz : ∀ l ∈ loads, l.load_number ≠ 0)
    (hpos : ∀ l ∈ loads, 0 < d depot l.pickup) :
    (rowOf (prioritize_neighbors srt d loads) 0).Perm
      (loads.map Load.load_number) := by
  have h0mem : 0 ∈ table_ids loads := by simp [table_ids]
  have h0notin : (0 : ℕ) ∉ loads.map Load.load_number := by
    intro hmem
    rcases List.mem_map.mp hmem with ⟨l, hl, heq⟩
    exact hnz l hl heq
  have hmin : ∀ x ∈ table_ids loads, x ≠ 0 →
      (fun x => distance_table d loads 0 x) 0 < (fun x => distance_table d loads 0 x) x := by
    intro x hx hx0
    simp only [distance_table_self]
    have hxload : x ∈ loads.map Load.load_number := by
      rcases List.mem_append.mp hx with h | h
      · exact h
      · simp at h; exact absurd h hx0
    rcases List.mem_map.mp hxload with ⟨l, hl, heq⟩
    have hdict : load_dict loads x = l := heq ▸ load_dict_lookup loads hids l hl (hnz l hl)
    have htbl : distance_table d loads 0 x = d depot l.pickup := by
      unfold distance_table
      rw [if_neg hx0, hdict]
      rfl
    rw [htbl]
    exact hpos l hl
  rcases sorted_perm_strict_min_eq_cons (fun x => distance_table d loads 0 x)
      (srt (fun x => distance_table d loads 0 x) (table_ids loads))
      (table_ids loads) 0
      (hsrt (fun x => distance_table d loads 0 x) (table_ids loads)).1
      (hsrt (fun x => distance_table d loads 0 x) (table_ids loads)).2
      h0mem hmin with ⟨t, hS, ht, _⟩
  rw [rowOf_prioritize srt d loads 0 h0mem, hS]
  have herase : (table_ids loads).erase 0 = loads.map Load.load_number := by
    unfold table_ids
    rw [List.erase_append_right _ h0notin]
    simp
  rw [← herase]
  exact ht

theorem rows_prioritize_sub (srt : (ℕ → α) → List ℕ → List ℕ)
    (hsrt : SortsBy srt) (d : Point α → Point α → α) (loads : List (Load α)) :
    ∀ y x, x ∈ rowOf (prioritize_neighbors srt d loads) y →
    x = 0 ∨ x ∈ loads.map Load.load_number := by
  intro y x hx
  by_cases hy : y ∈ table_ids loads
  · rw [rowOf_prioritize srt d loads y hy] at hx
    have hx2 : x ∈ srt (fun x => distance_table d loads y x) (table_ids loads) :=
      List.mem_of_mem_tail hx
    have hx3 : x ∈ table_ids loads :=
      ((hsrt (fun x => distance_table d loads y x) (table_ids loads)).1).mem_iff.mp hx2
    rcases List.mem_append.mp hx3 with h | h
    · exact Or.inr h
    · simp at h; exact Or.inl h
  · rw [rowOf_prioritize_not_mem srt d loads y hy] at hx
    cases hx

theorem rowOf_jiggle_perm (sampler : ℕ → List ℕ → List ℕ)
    (hs : ∀ y pre, (sampler y pre).Perm pre) (nm : List (ℕ × List ℕ)) (t : ℕ) :
    ∀ y, (rowOf (create_shuffled_neighbors_map sampler nm t) y).Perm (rowOf nm y) := by
  intro y
  induction nm with
  | nil => exact List.Perm.refl _
  | cons p rest ih =>
    simp only [create_shuffled_neighbors_map, List.map_cons]
    by_cases hpy : p.1 = y
    · unfold rowOf
      rw [List.find?_cons_of_pos _ (by simpa using hpy),
        List.find?_cons_of_pos _ (by simpa using hpy)]
      show (sampler p.1 (p.2.take t) ++ p.2.drop t).Perm p.2
      refine ((hs p.1 (p.2.take t)).append_right (p.2.drop t)).trans ?_
      rw [List.take_append_drop]
    · unfold rowOf
      rw [List.find?_cons_of_neg _ (by simpa using hpy),
        List.find?_cons_of_neg _ (by simpa using hpy)]
      exact ih

/-- Claim C1 (amended): on inputs with distinct positive load ids whose
pickups are all at strictly positive distance from the depot, every
constructor returns a Solution where each input load appears in exactly one
route, exactly once: the greedy packer (whenever its initial sort returns, see
C10), the deterministic nearest-neighbor constructor (for any row sort
satisfying the `sort_values` contract), and every run of the constructor
inside the Stochastic Improver (on any prefix-permuted neighbor map).
Without the positive-pickup-distance condition a load whose pickup ties
the depot at distance 0 can displace the depot sentinel from the ranking's
drop-first-column step and be omitted (see the counterexample). -/
theorem claim_C1_theorem (srt : (ℕ → α) → List ℕ → List ℕ) (hsrt : SortsBy srt)
    (d : Point α → Point α → α) (loads : List (Load α))
    (hids : (loads.map Load.load_number).Nodup)
    (hnz : ∀ l ∈ loads, l.load_number ≠ 0)
    (hpos : ∀ l ∈ loads, 0 < d depot l.pickup) :
    (∀ out, greedy_solve d loads = .ok out → (all_loads out).Perm loads)
    ∧ (all_loads (trip_optimizer_solve srt d loads)).Perm loads
    ∧ ∀ (sampler : ℕ → List ℕ → List ℕ), (∀ y pre, (sampler y pre).Perm pre) →
      ∀ t, (all_loads (pick_nearest_neighbor_routes d loads
          (create_shuffled_neighbors_map sampler (prioritize_neighbors srt d loads) t))).Perm
        loads := by
  have hrow0 : ∀ x, x ∈ rowOf (prioritize_neighbors srt d loads) 0
      ↔ x ∈ loads.map Load.load_number :=
    fun x => (row0_prioritize_perm srt hsrt d loads hids hnz hpos).mem_iff
  refine ⟨fun out hok => greedy_coverage d loads out hok, ?_, ?_⟩
  · exact pick_coverage d loads _ hids hnz hrow0 (rows_prioritize_sub srt hsrt d loads)
  · intro sampler hs t
    apply pick_coverage d loads _ hids hnz
    · intro x
      rw [(rowOf_jiggle_perm sampler hs (prioritize_neighbors srt d loads) t 0).mem_iff]
      exact hrow0 x
    · intro y x hx
      exact rows_prioritize_sub srt hsrt d loads y x
        ((rowOf_jiggle_perm sampler hs (prioritize_neighbors srt d loads) t y).mem_iff.mp hx)

theorem claim_C1_witness :
    (∀ out, greedy_solve axisDist [wLoad1, wLoad2] = .ok out
      → (all_loads out).Perm [wLoad1, wLoad2])
    ∧ (all_loads (trip_optimizer_solve sortAsc axisDist [wLoad1, wLoad2])).Perm
        [wLoad1, wLoad2]
    ∧ ∀ (sampler : ℕ → List ℕ → List ℕ), (∀ y pre, (sampler y pre).Perm pre) →
      ∀ t, (all_loads (pick_nearest_neighbor_routes axisDist [wLoad1, wLoad2]
          (create_shuffled_neighbors_map sampler
            (prioritize_neighbors sortAsc axisDist [wLoad1, wLoad2]) t))).Perm
        [wLoad1, wLoad2] :=
  claim_C1_theorem sortAsc sortAsc_sortsBy axisDist [wLoad1, wLoad2]
    (by decide) (by decide) (by decide)

/-- Claim C1 counterexample: on the single load `1: (0,0)→(5,0)`, whose pickup
coincides with the depot, the nearest-neighbor constructor returns one route
containing only the depot pseudo-load and omits load 1 entirely: the distance
0 from the depot to the pickup ties the depot row's diagonal, the sorted row
puts load 1 first, and the prioritizer's drop-first-column step removes load 1
instead of the depot sentinel.  The row sort is instantiated with the stable
`sortAsc`: these 2-entry rows are far below numpy's small-array cutoff, where
its introsort runs exactly a stable insertion sort, so this is the program's
actual behavior at this input. -/
theorem claim_C1_counterexample :
    ¬ (all_loads (trip_optimizer_solve sortAsc axisDist [depotPickupLoad])).Perm
      [depotPickupLoad] := by
  intro h
  have hcomp : all_loads (trip_optimizer_solve sortAsc axisDist [depotPickupLoad])
      = [originLoad] := by decide
  rw [hcomp] at h
  have heq := List.perm_singleton.mp h
  exact absurd heq (by decide)
